import Mathlib

/-!
Verification of the gqlb runtime document-assembly engine
(`packages/core/src/runtime.ts`).

The development shallowly embeds the runtime's data model:

* the GraphQL AST nodes the runtime produces (`ValueNode`, `SelectionNode`,
  `FragmentDefinitionNode`, `OperationDefinitionNode`, `DocumentNode`);
* the value serializer `makeValueNode`;
* the selection-node object model (`Sel`): fields, inline fragments, and
  references to fragment definitions.  A `FragmentDefinition` instance is
  identified by a numeric id `fid` indexing into an environment
  `env : List Frag`; object identity of instances is identity of ids;
* the fragment registry `FragmentMap` (`CollectSt` + `fragMapSet`), including
  the JSON.stringify-based consistency check of `FragmentMap.set`;
* the fragment-collection traversal `collectFragments` (`collectSels`),
  written with an explicit fuel parameter (the source recursion is through
  object references which may be cyclic; fuel sufficiency is proved);
* the document assembly of `Operation.document` / `FragmentDefinition.document`
  (`opBuildT` / `fragBuildT`), instrumented with a trace recording every
  invocation of a lazily stored selection-set thunk;
* the memoization cell `KeyedCache` and the cached `document()` entry point
  (`documentCall`), with object identity of built documents modeled by a
  monotonically increasing build id.
-/

/-- GraphQL value node, in the shape produced by `makeValueNode`.  The `kind`
discriminator strings of the wire AST are recovered by `ValueNode.kind`. -/
inductive ValueNode where
  | nullValue
  | stringValue (value : String)
  | intValue (value : String)
  | floatValue (value : String)
  | booleanValue (value : Bool)
  | listValue (values : List ValueNode)
  | variableValue (name : String)
  | enumNode (value : String)
  | objectValue (fields : List (String × ValueNode))
deriving Repr

/-- The `kind` tag of a value node, exactly the strings used in the source
(`"NullValue"`, `"IntValue"`, `"FloatValue"`, ...). -/
def ValueNode.kind : ValueNode → String
  | .nullValue => "NullValue"
  | .stringValue _ => "StringValue"
  | .intValue _ => "IntValue"
  | .floatValue _ => "FloatValue"
  | .booleanValue _ => "BooleanValue"
  | .listValue _ => "ListValue"
  | .variableValue _ => "Variable"
  | .enumNode _ => "EnumValue"
  | .objectValue _ => "ObjectValue"

/-- Decimal digits of `r / d` (0 ≤ r < d), with a fuel bound; models the
fractional digits JavaScript prints for a finite-decimal number. -/
def decDigits : Nat → Nat → Nat → List Char
  | 0, _, _ => []
  | fuel + 1, r, d =>
    if r = 0 then [] else Char.ofNat (48 + r * 10 / d) :: decDigits fuel (r * 10 % d) d

/-- Model of JavaScript `Number.prototype.toString` on the rational value of a
number: integers print without a decimal point, non-integers with one.  (The
runtime calls `value.toString()` on every numeric argument.) -/
def jsNumToString (q : Rat) : String :=
  if q.den = 1 then toString q.num
  else
    let sign := if q.num < 0 then "-" else ""
    let na := q.num.natAbs
    sign ++ toString (na / q.den) ++ "." ++ String.mk (decDigits 64 (na % q.den) q.den)

/-- The values callers can pass as field arguments, discriminated the way
`makeValueNode` discriminates them: `null`, `string`, `number` (carried as the
exact rational value of the JS number), `boolean`, arrays, the
variable-symbol-tagged marker (which stores a `VariableNode`, carried here by
its variable name), the enum marker, and plain objects. -/
inductive InputValue where
  | nullI
  | strI (s : String)
  | numI (q : Rat)
  | boolI (b : Bool)
  | arrI (xs : List InputValue)
  | varI (name : String)
  | enumI (s : String)
  | objI (fields : List (String × InputValue))
deriving Repr

mutual
/-- The value serializer `makeValueNode` of `runtime.ts`: note that every
`typeof value === "number"` input is emitted as an `IntValue` node carrying
`value.toString()`; there is no float branch in the source. -/
def makeValueNode : InputValue → ValueNode
  | .nullI => .nullValue
  | .strI s => .stringValue s
  | .numI q => .intValue (jsNumToString q)
  | .boolI b => .booleanValue b
  | .arrI xs => .listValue (makeValueNodes xs)
  | .varI n => .variableValue n
  | .enumI s => .enumNode s
  | .objI fs => .objectValue (makeValueFields fs)
/-- `value.map((v) => makeValueNode(v))` for array inputs. -/
def makeValueNodes : List InputValue → List ValueNode
  | [] => []
  | v :: rest => makeValueNode v :: makeValueNodes rest
/-- `Object.entries(value).map(...)` for object inputs (insertion order). -/
def makeValueFields : List (String × InputValue) → List (String × ValueNode)
  | [] => []
  | (n, v) :: rest => (n, makeValueNode v) :: makeValueFields rest
end

/-- GraphQL selection node as emitted into selection sets: a field (with
optional alias, arguments, optional nested selection set), an inline fragment,
or a fragment spread (a name reference only). -/
inductive SelectionNode where
  | fieldNode (al : Option String) (name : String) (args : List (String × ValueNode))
      (sub : Option (List SelectionNode))
  | inlineNode (typeCondition : String) (sub : List SelectionNode)
  | spreadNode (name : String)
deriving Repr

/-- The synthetic `__typename` field prefixed to every created selection set
(`createSelectionSet` in the source: no alias, empty arguments, no nested
selection set). -/
def typenameNode : SelectionNode := .fieldNode none "__typename" [] none

/-- The `name` carried by a selection node (field name, type condition, or
spread target); used to compare concrete selection sets. -/
def selectionName : SelectionNode → String
  | .fieldNode _ n _ _ => n
  | .inlineNode tc _ => tc
  | .spreadNode n => n

/-- A parsed variable type reference (result of `parseType`). -/
inductive TypeRef where
  | named (name : String)
  | listType (t : TypeRef)
  | nonNull (t : TypeRef)
deriving Repr

/-- One entry of `variableDefinitions`. -/
structure VariableDefinitionNode where
  varName : String
  varType : TypeRef
deriving Repr

/-- A fragment definition node (`FragmentDefinition.definition()`). -/
structure FragmentDefinitionNode where
  name : String
  typeCondition : String
  selections : List SelectionNode
deriving Repr

/-- An operation definition node (built inline by `Operation.document()`). -/
structure OperationDefinitionNode where
  operation : String
  name : String
  variableDefinitions : List VariableDefinitionNode
  selections : List SelectionNode
deriving Repr

/-- A member of `DocumentNode.definitions`. -/
inductive DefinitionNode where
  | fragmentDefinition (d : FragmentDefinitionNode)
  | operationDefinition (d : OperationDefinitionNode)
deriving Repr

/-- The produced document AST. -/
structure DocumentNode where
  definitions : List DefinitionNode
deriving Repr

/-- A selection inside a selection-set builder result
(`SelectionSetSelection`): a `Field` (arguments already serialized to argument
nodes, optional alias, optional nested selections), an `InlineFragment`, a
`FragmentDefinition` instance placed directly in the list (what `__fragment`
returns), or a `FragmentSpread` object wrapping a definition.  Fragment
definition instances are referenced by their id into the environment. -/
inductive Sel where
  | fieldS (name : String) (args : List (String × ValueNode)) (al : Option String)
      (sub : Option (List Sel))
  | inlineS (typeCondition : String) (sub : List Sel)
  | fragRef (fid : Nat)
  | spreadS (fid : Nat)
deriving Repr

/-- One (non-parameterized) `FragmentDefinition` instance: its name, type
condition, the (pure) result of its lazily stored selections thunk, and the
string `JSON.stringify` produces for its `KeyedCache` cell at build time
(`"\x7b\x7d"` for a never-populated cache: the cell's `cache` slot is
`undefined` and `cacheKeyFn` is a function or `undefined`, all of which
JSON.stringify omits). -/
structure Frag where
  name : String
  typeCondition : String
  body : List Sel
  cacheJson : String := "\x7b\x7d"
deriving Repr

/-- Look a fragment instance up by id.  Ids are only ever created for existing
instances in the source (they are object references), so the default is
unreachable in faithful uses. -/
def envFrag (env : List Frag) (fid : Nat) : Frag := env.getD fid ⟨"", "", [], "\x7b\x7d"⟩

/-- The fragment name behind an id. -/
def fidName (env : List Frag) (fid : Nat) : String := (envFrag env fid).name

mutual
/-- `Field.document()` / `InlineFragment.document()` / the
`createSelectionSet` branch for fragment children: a `FragmentDefinition` (or
a `FragmentSpread`) in a selection list emits only a named fragment-spread
node. -/
def selNode (env : List Frag) : Sel → SelectionNode
  | .fieldS n args al none => .fieldNode al n args none
  | .fieldS n args al (some sub) => .fieldNode al n args (some (typenameNode :: selNodes env sub))
  | .inlineS tc sub => .inlineNode tc (typenameNode :: selNodes env sub)
  | .fragRef fid => .spreadNode (envFrag env fid).name
  | .spreadS fid => .spreadNode (envFrag env fid).name
/-- The children of a selection set, in declaration order. -/
def selNodes (env : List Frag) : List Sel → List SelectionNode
  | [] => []
  | s :: rest => selNode env s :: selNodes env rest
end

/-- `createSelectionSet`: the synthetic `__typename` selection first,
unconditionally, followed by each child selection's produced node in
declaration order. -/
def createSelectionSet (env : List Frag) (sels : List Sel) : List SelectionNode :=
  typenameNode :: selNodes env sels

/-- `FragmentDefinition.definition()`: name, type condition, and the selection
set built from the thunk's result. -/
def definitionNode (env : List Frag) (fid : Nat) : FragmentDefinitionNode :=
  ⟨(envFrag env fid).name, (envFrag env fid).typeCondition,
    createSelectionSet env (envFrag env fid).body⟩

/-- The state of one `FragmentMap` during a single `.document()` build:
`entries` is the underlying name-keyed `Map` in JavaScript insertion order
(re-`set` of an existing key keeps its position), `fragSet` is the parallel
identity `Set` of registered instances, and `trace` records the ids whose
selections thunk has been invoked, in invocation order (instrumentation of
the traversal; the source invokes the thunk right after self-registration). -/
structure CollectSt where
  entries : List (String × Nat)
  fragSet : List Nat
  trace : List Nat
deriving Repr

/-- `Map.prototype.get` on the name-keyed entries. -/
def lookupEntry (entries : List (String × Nat)) (n : String) : Option Nat :=
  match entries.find? (fun e => e.1 == n) with
  | some e => some e.2
  | none => none

/-- `Map.prototype.set` key update: an existing key keeps its insertion
position and only its value is replaced; a new key is appended. -/
def setEntry (entries : List (String × Nat)) (n : String) (fid : Nat) :
    List (String × Nat) :=
  if entries.any (fun e => e.1 == n) then
    entries.map (fun e => if e.1 == n then (n, fid) else e)
  else entries ++ [(n, fid)]

/-- `Set.prototype.add`. -/
def addId (l : List Nat) (fid : Nat) : List Nat := if l.contains fid then l else fid :: l

/-- The Fragment Conflict error thrown by `FragmentMap.set`: its message names
the fragment and embeds `print(existing.definition())` and
`print(fragment.definition())`; we carry the two definition nodes. -/
structure Conflict where
  name : String
  existing : FragmentDefinitionNode
  incoming : FragmentDefinitionNode
deriving Repr

/-- What `JSON.stringify` observes of a (non-parameterized)
`FragmentDefinition` instance: its own enumerable, serializable properties are
the `cache` cell, `name` and `typeCondition`.  The `selections` property holds
a function and is omitted, as are the `undefined`-valued phantom fields. -/
def instJson (f : Frag) : String × String × String := (f.cacheJson, f.name, f.typeCondition)

/-- `FragmentMap.set` for non-parameterized fragment definitions: if the name
is free, register; otherwise compare `JSON.stringify(existing)` with
`JSON.stringify(fragment)` and throw the conflict error on mismatch, else
re-register silently (`fragments.add` + `super.set`). -/
def fragMapSet (env : List Frag) (st : CollectSt) (fid : Nat) : Except Conflict CollectSt :=
  let f := envFrag env fid
  match lookupEntry st.entries f.name with
  | some efid =>
    if instJson (envFrag env efid) = instJson f then
      .ok ⟨setEntry st.entries f.name fid, addId st.fragSet fid, st.trace⟩
    else
      .error ⟨f.name, definitionNode env efid, definitionNode env fid⟩
  | none => .ok ⟨st.entries ++ [(f.name, fid)], addId st.fragSet fid, st.trace⟩

/-- The `collectFragments` traversal over a list of selections, mirroring the
source: fields and inline fragments recurse into their children; a fragment
definition (reached directly or through a `FragmentSpread`) first checks the
identity set (`map.has(this)`) and returns immediately if present, otherwise
registers itself (`map.set`, which may throw the conflict error), invokes its
selections thunk (recorded in `trace`) and recurses into the body.  The
source recursion runs on possibly-cyclic object graphs, so the embedding
carries explicit fuel, consumed on every step; `none` means fuel ran out. -/
def collectSels (env : List Frag) : Nat → List Sel → CollectSt → Option (Except Conflict CollectSt)
  | 0, _, _ => none
  | _ + 1, [], st => some (.ok st)
  | fuel + 1, s :: rest, st =>
    match s with
    | .fieldS _ _ _ none => collectSels env fuel rest st
    | .fieldS _ _ _ (some sub) =>
      match collectSels env fuel sub st with
      | some (.ok st1) => collectSels env fuel rest st1
      | r => r
    | .inlineS _ sub =>
      match collectSels env fuel sub st with
      | some (.ok st1) => collectSels env fuel rest st1
      | r => r
    | .fragRef fid | .spreadS fid =>
      if st.fragSet.contains fid then collectSels env fuel rest st
      else
        match fragMapSet env st fid with
        | .error e => some (.error e)
        | .ok st1 =>
          match collectSels env fuel (envFrag env fid).body
              ⟨st1.entries, st1.fragSet, st1.trace ++ [fid]⟩ with
          | some (.ok st2) => collectSels env fuel rest st2
          | r => r

/-- An `Operation` instance: name, operation type, variable definitions, and
the (pure) result of the deferred builder thunk
`() => builder(makeBuilderObject(), variables)`. -/
structure Op where
  name : String
  opType : String
  variableDefinitions : List VariableDefinitionNode
  body : List Sel
deriving Repr

/-- The uncached build path of `Operation.document()`, instrumented with a
thunk-invocation trace: `none` marks an invocation of the operation's own
selections thunk, `some fid` an invocation of fragment `fid`'s thunk.  The
source invokes `this.selections()` once for the collection loop, then emits
every registered fragment's `definition()` (each of which invokes that
fragment's thunk) in registry insertion order, then builds the operation
definition node with a second `this.selections()` call. -/
def opBuildT (env : List Frag) (op : Op) (fuel : Nat) :
    Option (Except Conflict (DocumentNode × List (Option Nat))) :=
  match collectSels env fuel op.body ⟨[], [], []⟩ with
  | none => none
  | some (.error e) => some (.error e)
  | some (.ok st) =>
    some (.ok (
      ⟨(st.entries.map (fun e => DefinitionNode.fragmentDefinition (definitionNode env e.2))) ++
        [DefinitionNode.operationDefinition
          ⟨op.opType, op.name, op.variableDefinitions, createSelectionSet env op.body⟩]⟩,
      [none] ++ st.trace.map some ++ st.entries.map (fun e => some e.2) ++ [none]))

/-- The uncached build path of `FragmentDefinition.document()`: collect
starting from the fragment itself (`this.collectFragments(fragmentMap)`), then
the document consists solely of the registered fragments' definitions. -/
def fragBuildT (env : List Frag) (fid : Nat) (fuel : Nat) :
    Option (Except Conflict (DocumentNode × List (Option Nat))) :=
  match collectSels env fuel [Sel.fragRef fid] ⟨[], [], []⟩ with
  | none => none
  | some (.error e) => some (.error e)
  | some (.ok st) =>
    some (.ok (
      ⟨st.entries.map (fun e => DefinitionNode.fragmentDefinition (definitionNode env e.2))⟩,
      st.trace.map some ++ st.entries.map (fun e => some e.2)))

/-- The names of the fragment-definition nodes of a document, in order. -/
def fragDefNames (doc : DocumentNode) : List String :=
  doc.definitions.filterMap (fun d =>
    match d with
    | .fragmentDefinition f => some f.name
    | .operationDefinition _ => none)

/-- Keep the first occurrence of each name (specification-side description of
how a name-keyed insertion-ordered map orders its keys). -/
def dedupStep (acc : List String) (n : String) : List String :=
  if n ∈ acc then acc else acc ++ [n]

/-- First-occurrence deduplication of a list of names. -/
def dedupFirst (l : List String) : List String := l.foldl dedupStep []

/-- The memo cell `KeyedCache`: an optional cache-key-producing function fixed
at construction, and at most one stored `value`/`cacheKey` pair.  The key
function closes over caller state, modeled by an explicit world parameter `W`
passed to every access; key elements are compared with `===`, modeled by
decidable equality on `K` (reference equality of objects is obtained by
instantiating `K` with an identity type such as `Nat`). -/
structure KeyedCache (T K W : Type) where
  cacheKeyFn : Option (W → List K)
  cache : Option (T × Option (List K))

/-- `cacheKey.every((v, i) => v === this.cache!.cacheKey![i])`: walk the fresh
key; each element must equal the stored key's element at the same index (an
out-of-range index yields `undefined`, equal to no key element). -/
def everyMatch [DecidableEq K] : List K → List K → Bool
  | [], _ => true
  | _ :: _, [] => false
  | v :: ck, u :: stored => (v = u : Bool) && everyMatch ck stored

/-- `KeyedCache.get`: re-invoke the key function; no stored pair means miss;
no key function on both sides means unconditional hit; a fresh key hits only
if it is non-empty and element-wise equal to the stored key.  (The fourth
case, a key function with a stored pair lacking a key, cannot arise: `set`
computes the stored key with the same function.) -/
def kcGet [DecidableEq K] (c : KeyedCache T K W) (w : W) : Option T :=
  let cacheKey := c.cacheKeyFn.map (fun f => f w)
  match c.cache with
  | none => none
  | some (value, stored) =>
    match cacheKey, stored with
    | none, none => some value
    | none, some _ => none
    | some ck, some st => if ck.length ≠ 0 ∧ everyMatch ck st then some value else none
    | some _, none => none

/-- `KeyedCache.set`: store the value along with the key function's current
result. -/
def kcSet [DecidableEq K] (c : KeyedCache T K W) (w : W) (value : T) : KeyedCache T K W :=
  ⟨c.cacheKeyFn, some (value, c.cacheKeyFn.map (fun f => f w))⟩

/-- A built document together with an identity tag: each uncached build
allocates a fresh object, modeled by a strictly increasing build id; two
results are the same object reference exactly when their build ids agree. -/
structure TaggedDoc where
  doc : DocumentNode
  buildId : Nat
deriving Repr

/-- The per-instance mutable state relevant to `document()`: the cache cell
and the allocator for build ids. -/
structure DocState (K W : Type) where
  cache : KeyedCache TaggedDoc K W
  nextId : Nat

/-- One call of `Operation.document()` / `FragmentDefinition.document()` with
the build content fixed: on a cache hit return the stored document, otherwise
build a fresh document object (fresh build id, same AST `content`, the
environment being unchanged) and store it. -/
def documentCall [DecidableEq K] (content : DocumentNode) (st : DocState K W) (w : W) :
    TaggedDoc × DocState K W :=
  match kcGet st.cache w with
  | some d => (d, st)
  | none => (⟨content, st.nextId⟩, ⟨kcSet st.cache w ⟨content, st.nextId⟩, st.nextId + 1⟩)

mutual
/-- Check that every nested selection set of a node starts with a `__typename`
selection. -/
def selGood : SelectionNode → Bool
  | .fieldNode _ _ _ none => true
  | .fieldNode _ _ _ (some sub) => ssGood sub
  | .inlineNode _ sub => ssGood sub
  | .spreadNode _ => true
/-- `selGood` over a list of children. -/
def selsGood : List SelectionNode → Bool
  | [] => true
  | s :: rest => selGood s && selsGood rest
/-- A well-ordered selection set: non-empty, its first selection is the
synthetic `__typename` field, and every nested selection set is itself
well-ordered. -/
def ssGood : List SelectionNode → Bool
  | [] => false
  | t :: rest =>
    (match t with
      | .fieldNode none "__typename" [] none => true
      | _ => false) && selsGood rest
end

/-- A definition whose selection set (and all nested ones) is well-ordered. -/
def defGood : DefinitionNode → Bool
  | .fragmentDefinition d => ssGood d.selections
  | .operationDefinition d => ssGood d.selections

/-- Every definition of the document is well-ordered. -/
def docGood (doc : DocumentNode) : Bool := doc.definitions.all defGood

mutual
/-- The fragment ids referenced (spread) anywhere inside a selection, not
following fragment bodies. -/
def selRefs : Sel → List Nat
  | .fieldS _ _ _ none => []
  | .fieldS _ _ _ (some sub) => selsRefs sub
  | .inlineS _ sub => selsRefs sub
  | .fragRef fid => [fid]
  | .spreadS fid => [fid]
/-- `selRefs` over a list. -/
def selsRefs : List Sel → List Nat
  | [] => []
  | s :: rest => selRefs s ++ selsRefs rest
end

mutual
/-- Structural weight of a selection: an upper bound on the traversal steps
spent inside it, fragments excluded. -/
def selW : Sel → Nat
  | .fieldS _ _ _ none => 1
  | .fieldS _ _ _ (some sub) => 1 + selsW sub
  | .inlineS _ sub => 1 + selsW sub
  | .fragRef _ => 1
  | .spreadS _ => 1
/-- Structural weight of a selection list (positive). -/
def selsW : List Sel → Nat
  | [] => 1
  | s :: rest => selW s + selsW rest
end

/-- Fuel needed for the fragments of `U` not yet registered in `st`: one visit
step plus the weight of each body. -/
def keyWeight (env : List Frag) (U : List Nat) (st : CollectSt) : Nat :=
  ((U.filter (fun fid => !(st.fragSet.contains fid))).map
    (fun fid => 1 + selsW (envFrag env fid).body)).sum

/-! ### Basic lemmas -/

theorem everyMatch_append [DecidableEq K] :
    ∀ ck rest : List K, everyMatch ck (ck ++ rest) = true := by
  intro ck rest
  induction ck with
  | nil => rfl
  | cons v ck ih => simp [everyMatch, ih]

theorem mem_dedupStep {n : String} {acc : List String} {m : String} :
    n ∈ dedupStep acc m ↔ n ∈ acc ∨ n = m := by
  unfold dedupStep
  by_cases h : m ∈ acc
  · simp only [if_pos h]
    constructor
    · exact fun hn => Or.inl hn
    · rintro (hn | rfl)
      · exact hn
      · exact h
  · simp [if_neg h]

theorem mem_foldl_dedupStep {n : String} :
    ∀ (l acc : List String), n ∈ l.foldl dedupStep acc ↔ n ∈ acc ∨ n ∈ l := by
  intro l
  induction l with
  | nil => simp
  | cons m l ih =>
    intro acc
    rw [List.foldl_cons, ih]
    rw [mem_dedupStep]
    constructor
    · rintro (⟨ha | rfl⟩ | hl)
      · exact Or.inl ha
      · simp
      · simp [hl]
    · rintro (ha | hm)
      · exact Or.inl (Or.inl ha)
      · rcases List.mem_cons.mp hm with rfl | hl
        · exact Or.inl (Or.inr rfl)
        · exact Or.inr hl

theorem mem_dedupFirst {n : String} {l : List String} : n ∈ dedupFirst l ↔ n ∈ l := by
  unfold dedupFirst
  rw [mem_foldl_dedupStep]
  simp

theorem dedupFirst_append_one (l : List String) (n : String) :
    dedupFirst (l ++ [n]) = dedupStep (dedupFirst l) n := by
  unfold dedupFirst
  rw [List.foldl_append, List.foldl_cons, List.foldl_nil]

theorem count_none_map_some {l : List Nat} : (l.map Option.some).count none = 0 := by
  rw [List.count_eq_zero]
  simp

theorem addId_contains_iff {l : List Nat} {fid g : Nat} :
    (addId l fid).contains g = true ↔ g = fid ∨ l.contains g = true := by
  unfold addId
  by_cases h : l.contains fid
  · rw [if_pos h]
    constructor
    · exact fun hg => Or.inr hg
    · rintro (rfl | hg)
      · exact h
      · exact hg
  · rw [if_neg h]
    simp only [List.contains_cons, Bool.or_eq_true, beq_iff_eq]

theorem addId_contains_self {l : List Nat} {fid : Nat} : (addId l fid).contains fid = true :=
  addId_contains_iff.mpr (Or.inl rfl)

theorem addId_contains_mono {l : List Nat} {fid g : Nat} (h : l.contains g = true) :
    (addId l fid).contains g = true :=
  addId_contains_iff.mpr (Or.inr h)

theorem lookupEntry_eq_none_iff {entries : List (String × Nat)} {n : String} :
    lookupEntry entries n = none ↔ n ∉ entries.map Prod.fst := by
  unfold lookupEntry
  constructor
  · intro h hmem
    cases hf : entries.find? (fun e => e.1 == n) with
    | none =>
      rcases List.mem_map.mp hmem with ⟨e, he, hkey⟩
      have := List.find?_eq_none.mp hf e he
      simp [hkey] at this
    | some e => rw [hf] at h; simp at h
  · intro hmem
    cases hf : entries.find? (fun e => e.1 == n) with
    | none => rfl
    | some e =>
      have hp := List.find?_some hf
      have hin := List.mem_of_find?_eq_some hf
      exact absurd (List.mem_map.mpr ⟨e, hin, by simpa using hp⟩) hmem

theorem setEntry_map_fst {entries : List (String × Nat)} {n : String} {fid : Nat}
    (h : n ∈ entries.map Prod.fst) :
    (setEntry entries n fid).map Prod.fst = entries.map Prod.fst := by
  unfold setEntry
  rcases List.mem_map.mp h with ⟨e, he, hkey⟩
  rw [if_pos]
  · rw [List.map_map]
    apply List.map_congr_left
    intro a _
    by_cases ha : a.1 = n
    · simp [ha]
    · simp [ha]
  · exact List.any_eq_true.mpr ⟨e, he, by simpa using hkey⟩

theorem setEntry_mem {entries : List (String × Nat)} {n : String} {fid : Nat}
    (hn : n ∈ entries.map Prod.fst) :
    ∀ e ∈ setEntry entries n fid, e = (n, fid) ∨ (e ∈ entries ∧ e.1 ≠ n) := by
  unfold setEntry
  rcases List.mem_map.mp hn with ⟨e0, he0, hkey0⟩
  rw [if_pos (List.any_eq_true.mpr ⟨e0, he0, by simpa using hkey0⟩)]
  intro e he
  rcases List.mem_map.mp he with ⟨a, ha, hae⟩
  by_cases hk : a.1 = n
  · left; rw [← hae]; simp [hk]
  · right
    constructor
    · rw [← hae]; simp [hk]; exact ha
    · rw [← hae]; simp [hk]

theorem selW_pos : ∀ s : Sel, 1 ≤ selW s
  | .fieldS _ _ _ none => by simp [selW]
  | .fieldS _ _ _ (some _) => by simp [selW]
  | .inlineS _ _ => by simp [selW]
  | .fragRef _ => by simp [selW]
  | .spreadS _ => by simp [selW]

theorem selsW_pos : ∀ l : List Sel, 1 ≤ selsW l := by
  intro l
  cases l with
  | nil => simp [selsW]
  | cons s rest => have := selW_pos s; simp [selsW]; omega

/-! ### Inversion and monotonicity of the traversal -/

theorem fragMapSet_ok {env : List Frag} {st : CollectSt} {fid : Nat} {st1 : CollectSt}
    (h : fragMapSet env st fid = .ok st1) :
    st1.trace = st.trace ∧ st1.fragSet = addId st.fragSet fid ∧
    ((fidName env fid ∈ st.entries.map Prod.fst ∧
      st1.entries = setEntry st.entries (fidName env fid) fid) ∨
     (fidName env fid ∉ st.entries.map Prod.fst ∧
      st1.entries = st.entries ++ [(fidName env fid, fid)])) := by
  simp only [fragMapSet] at h
  cases hl : lookupEntry st.entries (envFrag env fid).name with
  | none =>
    rw [hl] at h
    simp only [Except.ok.injEq] at h
    subst h
    refine ⟨rfl, rfl, Or.inr ⟨?_, rfl⟩⟩
    exact lookupEntry_eq_none_iff.mp hl
  | some efid =>
    rw [hl] at h
    dsimp only at h
    by_cases hj : instJson (envFrag env efid) = instJson (envFrag env fid)
    · rw [if_pos hj] at h
      simp only [Except.ok.injEq] at h
      subst h
      refine ⟨rfl, rfl, Or.inl ⟨?_, rfl⟩⟩
      by_contra hmem
      rw [← lookupEntry_eq_none_iff] at hmem
      rw [show fidName env fid = (envFrag env fid).name from rfl] at hmem
      rw [hmem] at hl
      exact Option.noConfusion hl
    · rw [if_neg hj] at h
      exact Except.noConfusion h

theorem collect_mono {env : List Frag} :
    ∀ {fuel : Nat} {l : List Sel} {st st' : CollectSt},
      collectSels env fuel l st = some (.ok st') →
      (∀ fid, st.fragSet.contains fid = true → st'.fragSet.contains fid = true) ∧
      ∃ tr, st'.trace = st.trace ++ tr := by
  intro fuel
  induction fuel with
  | zero => intro l st st' h; simp [collectSels] at h
  | succ fuel ih =>
    intro l st st' h
    match l with
    | [] =>
      simp only [collectSels, Option.some.injEq, Except.ok.injEq] at h
      subst h
      exact ⟨fun _ hf => hf, [], by simp⟩
    | s :: rest =>
      match s with
      | .fieldS n args al none =>
        simp only [collectSels] at h
        exact ih h
      | .fieldS n args al (some sub) =>
        simp only [collectSels] at h
        cases hsub : collectSels env fuel sub st with
        | none => rw [hsub] at h; exact Option.noConfusion h
        | some r =>
          cases r with
          | error e => rw [hsub] at h; simp at h
          | ok st1 =>
            rw [hsub] at h
            obtain ⟨m1, tr1, htr1⟩ := ih hsub
            obtain ⟨m2, tr2, htr2⟩ := ih h
            exact ⟨fun fid hf => m2 fid (m1 fid hf), tr1 ++ tr2,
              by rw [htr2, htr1, List.append_assoc]⟩
      | .inlineS tc sub =>
        simp only [collectSels] at h
        cases hsub : collectSels env fuel sub st with
        | none => rw [hsub] at h; exact Option.noConfusion h
        | some r =>
          cases r with
          | error e => rw [hsub] at h; simp at h
          | ok st1 =>
            rw [hsub] at h
            obtain ⟨m1, tr1, htr1⟩ := ih hsub
            obtain ⟨m2, tr2, htr2⟩ := ih h
            exact ⟨fun fid hf => m2 fid (m1 fid hf), tr1 ++ tr2,
              by rw [htr2, htr1, List.append_assoc]⟩
      | .fragRef fid =>
        simp only [collectSels] at h
        by_cases hc : st.fragSet.contains fid = true
        · rw [if_pos hc] at h
          exact ih h
        · rw [if_neg hc] at h
          cases hset : fragMapSet env st fid with
          | error e => rw [hset] at h; simp at h
          | ok st1 =>
            rw [hset] at h
            dsimp only at h
            obtain ⟨htr, hfs, _⟩ := fragMapSet_ok hset
            cases hbody : collectSels env fuel (envFrag env fid).body
                ⟨st1.entries, st1.fragSet, st1.trace ++ [fid]⟩ with
            | none => rw [hbody] at h; exact Option.noConfusion h
            | some r =>
              cases r with
              | error e => rw [hbody] at h; simp at h
              | ok st2 =>
                rw [hbody] at h
                dsimp only at h
                obtain ⟨m1, tr1, htr1⟩ := ih hbody
                obtain ⟨m2, tr2, htr2⟩ := ih h
                refine ⟨fun g hg => m2 g (m1 g ?_), [fid] ++ tr1 ++ tr2, ?_⟩
                · show (⟨st1.entries, st1.fragSet, st1.trace ++ [fid]⟩ :
                      CollectSt).fragSet.contains g = true
                  rw [hfs]
                  exact addId_contains_mono hg
                · rw [htr2, htr1]
                  simp [htr, List.append_assoc]
      | .spreadS fid =>
        simp only [collectSels] at h
        by_cases hc : st.fragSet.contains fid = true
        · rw [if_pos hc] at h
          exact ih h
        · rw [if_neg hc] at h
          cases hset : fragMapSet env st fid with
          | error e => rw [hset] at h; simp at h
          | ok st1 =>
            rw [hset] at h
            dsimp only at h
            obtain ⟨htr, hfs, _⟩ := fragMapSet_ok hset
            cases hbody : collectSels env fuel (envFrag env fid).body
                ⟨st1.entries, st1.fragSet, st1.trace ++ [fid]⟩ with
            | none => rw [hbody] at h; exact Option.noConfusion h
            | some r =>
              cases r with
              | error e => rw [hbody] at h; simp at h
              | ok st2 =>
                rw [hbody] at h
                dsimp only at h
                obtain ⟨m1, tr1, htr1⟩ := ih hbody
                obtain ⟨m2, tr2, htr2⟩ := ih h
                refine ⟨fun g hg => m2 g (m1 g ?_), [fid] ++ tr1 ++ tr2, ?_⟩
                · show (⟨st1.entries, st1.fragSet, st1.trace ++ [fid]⟩ :
                      CollectSt).fragSet.contains g = true
                  rw [hfs]
                  exact addId_contains_mono hg
                · rw [htr2, htr1]
                  simp [htr, List.append_assoc]

/-- The invariant of the fragment registry during one build: the map's keys
are exactly the first-occurrence-deduplicated names of the first-visit
(thunk-invocation) sequence; keys are unique; the first-visit sequence has no
repeats; every first-visited id is in the identity set; and every entry's key
is the name of the instance it stores. -/
structure RegInv (env : List Frag) (st : CollectSt) : Prop where
  namesEq : st.entries.map Prod.fst = dedupFirst (st.trace.map (fidName env))
  namesNodup : (st.entries.map Prod.fst).Nodup
  traceNodup : st.trace.Nodup
  traceInSet : ∀ fid ∈ st.trace, st.fragSet.contains fid = true
  entryNames : ∀ e ∈ st.entries, fidName env e.2 = e.1

theorem regInv_init {env : List Frag} : RegInv env ⟨[], [], []⟩ := by
  refine ⟨?_, ?_, ?_, ?_, ?_⟩ <;> simp [dedupFirst]

theorem regInv_fragVisit {env : List Frag} {st st1 : CollectSt} {fid : Nat}
    (hinv : RegInv env st) (hc : st.fragSet.contains fid = false)
    (hset : fragMapSet env st fid = .ok st1) :
    RegInv env ⟨st1.entries, st1.fragSet, st1.trace ++ [fid]⟩ := by
  obtain ⟨htr, hfs, hcase⟩ := fragMapSet_ok hset
  have hfidtrace : fid ∉ st.trace := by
    intro hmem
    rw [hinv.traceInSet fid hmem] at hc
    exact Bool.noConfusion hc
  have htrNames : (st1.trace ++ [fid]).map (fidName env) =
      st.trace.map (fidName env) ++ [fidName env fid] := by
    rw [htr]; simp
  refine ⟨?_, ?_, ?_, ?_, ?_⟩
  · rw [htrNames, dedupFirst_append_one, ← hinv.namesEq]
    rcases hcase with ⟨hmem, hent⟩ | ⟨hmem, hent⟩
    · rw [hent, setEntry_map_fst hmem]
      unfold dedupStep
      rw [if_pos hmem]
    · rw [hent]
      unfold dedupStep
      rw [if_neg hmem]
      simp
  · rcases hcase with ⟨hmem, hent⟩ | ⟨hmem, hent⟩
    · rw [hent, setEntry_map_fst hmem]
      exact hinv.namesNodup
    · rw [hent]
      simp only [List.map_append, List.map_cons, List.map_nil]
      rw [List.nodup_append]
      exact ⟨hinv.namesNodup, List.nodup_singleton _, by simpa using hmem⟩
  · rw [htr]
    rw [List.nodup_append]
    exact ⟨hinv.traceNodup, List.nodup_singleton _, by simpa using hfidtrace⟩
  · intro g hg
    rw [htr] at hg
    rw [hfs]
    rcases List.mem_append.mp hg with hg | hg
    · exact addId_contains_mono (hinv.traceInSet g hg)
    · rcases List.mem_singleton.mp hg with rfl
      exact addId_contains_self
  · intro e he
    rcases hcase with ⟨hmem, hent⟩ | ⟨hmem, hent⟩
    · rw [hent] at he
      rcases setEntry_mem hmem e he with rfl | ⟨he', _⟩
      · rfl
      · exact hinv.entryNames e he'
    · rw [hent] at he
      rcases List.mem_append.mp he with he | he
      · exact hinv.entryNames e he
      · rcases List.mem_singleton.mp he with rfl
        rfl

theorem collect_regInv {env : List Frag} :
    ∀ {fuel : Nat} {l : List Sel} {st st' : CollectSt},
      collectSels env fuel l st = some (.ok st') → RegInv env st → RegInv env st' := by
  intro fuel
  induction fuel with
  | zero => intro l st st' h _; simp [collectSels] at h
  | succ fuel ih =>
    intro l st st' h hinv
    match l with
    | [] =>
      simp only [collectSels, Option.some.injEq, Except.ok.injEq] at h
      subst h
      exact hinv
    | s :: rest =>
      match s with
      | .fieldS n args al none =>
        simp only [collectSels] at h
        exact ih h hinv
      | .fieldS n args al (some sub) =>
        simp only [collectSels] at h
        cases hsub : collectSels env fuel sub st with
        | none => rw [hsub] at h; exact Option.noConfusion h
        | some r =>
          cases r with
          | error e => rw [hsub] at h; simp at h
          | ok st1 =>
            rw [hsub] at h
            exact ih h (ih hsub hinv)
      | .inlineS tc sub =>
        simp only [collectSels] at h
        cases hsub : collectSels env fuel sub st with
        | none => rw [hsub] at h; exact Option.noConfusion h
        | some r =>
          cases r with
          | error e => rw [hsub] at h; simp at h
          | ok st1 =>
            rw [hsub] at h
            exact ih h (ih hsub hinv)
      | .fragRef fid =>
        simp only [collectSels] at h
        by_cases hc : st.fragSet.contains fid = true
        · rw [if_pos hc] at h
          exact ih h hinv
        · rw [if_neg hc] at h
          cases hset : fragMapSet env st fid with
          | error e => rw [hset] at h; simp at h
          | ok st1 =>
            rw [hset] at h
            dsimp only at h
            cases hbody : collectSels env fuel (envFrag env fid).body
                ⟨st1.entries, st1.fragSet, st1.trace ++ [fid]⟩ with
            | none => rw [hbody] at h; exact Option.noConfusion h
            | some r =>
              cases r with
              | error e => rw [hbody] at h; simp at h
              | ok st2 =>
                rw [hbody] at h
                dsimp only at h
                have hinv1 := regInv_fragVisit hinv (Bool.eq_false_iff.mpr hc) hset
                exact ih h (ih hbody hinv1)
      | .spreadS fid =>
        simp only [collectSels] at h
        by_cases hc : st.fragSet.contains fid = true
        · rw [if_pos hc] at h
          exact ih h hinv
        · rw [if_neg hc] at h
          cases hset : fragMapSet env st fid with
          | error e => rw [hset] at h; simp at h
          | ok st1 =>
            rw [hset] at h
            dsimp only at h
            cases hbody : collectSels env fuel (envFrag env fid).body
                ⟨st1.entries, st1.fragSet, st1.trace ++ [fid]⟩ with
            | none => rw [hbody] at h; exact Option.noConfusion h
            | some r =>
              cases r with
              | error e => rw [hbody] at h; simp at h
              | ok st2 =>
                rw [hbody] at h
                dsimp only at h
                have hinv1 := regInv_fragVisit hinv (Bool.eq_false_iff.mpr hc) hset
                exact ih h (ih hbody hinv1)

/-! ### Well-ordered selection sets -/

mutual
theorem selGood_selNode (env : List Frag) : (s : Sel) → selGood (selNode env s) = true
  | .fieldS _ _ _ none => rfl
  | .fieldS _ _ _ (some sub) => by
      simp only [selNode, selGood, ssGood, Bool.true_and]
      exact selsGood_selNodes env sub
  | .inlineS _ sub => by
      simp only [selNode, selGood, ssGood, Bool.true_and]
      exact selsGood_selNodes env sub
  | .fragRef _ => rfl
  | .spreadS _ => rfl
theorem selsGood_selNodes (env : List Frag) : (l : List Sel) → selsGood (selNodes env l) = true
  | [] => rfl
  | s :: rest => by
      simp only [selNodes, selsGood, Bool.and_eq_true]
      exact ⟨selGood_selNode env s, selsGood_selNodes env rest⟩
end

theorem ssGood_createSelectionSet (env : List Frag) (l : List Sel) :
    ssGood (createSelectionSet env l) = true := by
  simp only [createSelectionSet, ssGood, typenameNode, Bool.true_and]
  exact selsGood_selNodes env l

theorem defGood_definitionNode (env : List Frag) (fid : Nat) :
    defGood (.fragmentDefinition (definitionNode env fid)) = true := by
  simp only [defGood, definitionNode]
  exact ssGood_createSelectionSet env (envFrag env fid).body

/-! ### Fuel sufficiency of the traversal -/

theorem keyWeight_mono {env : List Frag} {U : List Nat} {st st' : CollectSt}
    (h : ∀ g, st.fragSet.contains g = true → st'.fragSet.contains g = true) :
    keyWeight env U st' ≤ keyWeight env U st := by
  unfold keyWeight
  apply List.Sublist.sum_le_sum
  · apply List.Sublist.map
    apply List.monotone_filter_right
    intro g hg
    simp only [Bool.not_eq_true'] at hg ⊢
    by_contra hcon
    rw [h g (Bool.not_eq_false _ ▸ (by simpa using hcon))] at hg
    exact Bool.noConfusion hg
  · intro a _
    exact Nat.zero_le a

theorem filter_notMem_congr {U : List Nat} {fid : Nat} (hnot : fid ∉ U)
    (fs : List Nat) :
    U.filter (fun g => !((fid :: fs).contains g)) = U.filter (fun g => !(fs.contains g)) := by
  apply List.filter_congr
  intro g hg
  have hne : g ≠ fid := fun hgf => hnot (hgf ▸ hg)
  simp [List.contains_cons, hne]


theorem filter_visit_sum {f : Nat → Nat} {fs : List Nat} {fid : Nat} :
    ∀ {U : List Nat}, U.Nodup → fid ∈ U → fs.contains fid = false →
      ((U.filter (fun g => !((fid :: fs).contains g))).map f).sum + f fid
        = ((U.filter (fun g => !(fs.contains g))).map f).sum := by
  intro U
  induction U with
  | nil => intro _ hmem _; cases hmem
  | cons u U ihU =>
    intro hU hmem hc
    by_cases hu : u = fid
    · subst hu
      have hnotU : u ∉ U := (List.nodup_cons.mp hU).1
      rw [List.filter_cons, List.filter_cons]
      have h1 : ((u :: fs).contains u) = true := by simp [List.contains_cons]
      rw [h1, hc]
      simp only [Bool.not_true, Bool.not_false, ite_false, ite_true, Bool.false_eq_true]
      rw [filter_notMem_congr hnotU fs]
      simp only [List.map_cons, List.sum_cons]
      omega
    · have hU' : U.Nodup := (List.nodup_cons.mp hU).2
      have hmem' : fid ∈ U := by
        rcases List.mem_cons.mp hmem with h | h
        · exact absurd h.symm hu
        · exact h
      rw [List.filter_cons, List.filter_cons]
      have hcu : ((fid :: fs).contains u) = (fs.contains u) := by
        simp [List.contains_cons, fun h => hu h]
      rw [hcu]
      by_cases hfu : fs.contains u = true
      · rw [hfu]
        simp only [Bool.not_true, ite_false, Bool.false_eq_true]
        exact ihU hU' hmem' hc
      · rw [Bool.eq_false_iff.mpr hfu]
        simp only [Bool.not_false, ite_true]
        simp only [List.map_cons, List.sum_cons]
        have := ihU hU' hmem' hc
        omega

theorem keyWeight_visit {env : List Frag} {U : List Nat} {st : CollectSt} {fid : Nat}
    (hU : U.Nodup) (hmem : fid ∈ U) (hc : st.fragSet.contains fid = false)
    {ent : List (String × Nat)} {tr : List Nat} :
    keyWeight env U ⟨ent, addId st.fragSet fid, tr⟩ + (1 + selsW (envFrag env fid).body)
      = keyWeight env U st := by
  unfold keyWeight
  have haddId : addId st.fragSet fid = fid :: st.fragSet := by
    unfold addId
    rw [if_neg (by rw [hc]; exact Bool.noConfusion)]
  rw [haddId]
  exact filter_visit_sum hU hmem hc

theorem collect_total_aux {env : List Frag} {U : List Nat}
    (hU : U.Nodup)
    (hclosed : ∀ fid ∈ U, ∀ g ∈ selsRefs (envFrag env fid).body, g ∈ U) :
    ∀ {fuel : Nat} {l : List Sel} {st : CollectSt},
      (∀ g ∈ selsRefs l, g ∈ U) →
      selsW l + keyWeight env U st ≤ fuel →
      (collectSels env fuel l st).isSome = true := by
  intro fuel
  induction fuel with
  | zero =>
    intro l st _ hfuel
    have := selsW_pos l
    omega
  | succ fuel ih =>
    intro l st hrefs hfuel
    match l with
    | [] => simp [collectSels]
    | s :: rest =>
      have hrefs' : (∀ g ∈ selRefs s, g ∈ U) ∧ (∀ g ∈ selsRefs rest, g ∈ U) := by
        constructor <;> intro g hg <;> apply hrefs g
        · simp only [selsRefs, List.mem_append]; exact Or.inl hg
        · simp only [selsRefs, List.mem_append]; exact Or.inr hg
      match s with
      | .fieldS n args al none =>
        simp only [collectSels]
        apply ih hrefs'.2
        simp only [selsW, selW] at hfuel ⊢
        omega
      | .fieldS n args al (some sub) =>
        simp only [collectSels]
        have hsubW : 1 ≤ selsW sub := selsW_pos sub
        have hrestW : 1 ≤ selsW rest := selsW_pos rest
        have hsubRefs : ∀ g ∈ selsRefs sub, g ∈ U := by
          intro g hg; exact hrefs'.1 g (by simp only [selRefs]; exact hg)
        have hsome : (collectSels env fuel sub st).isSome = true := by
          apply ih hsubRefs
          simp only [selsW, selW] at hfuel
          omega
        cases hsub : collectSels env fuel sub st with
        | none => rw [hsub] at hsome; exact Bool.noConfusion hsome
        | some r =>
          cases r with
          | error e => rfl
          | ok st1 =>
            dsimp only
            apply ih hrefs'.2
            have hkw : keyWeight env U st1 ≤ keyWeight env U st :=
              keyWeight_mono (collect_mono hsub).1
            simp only [selsW, selW] at hfuel
            omega
      | .inlineS tc sub =>
        simp only [collectSels]
        have hsubW : 1 ≤ selsW sub := selsW_pos sub
        have hrestW : 1 ≤ selsW rest := selsW_pos rest
        have hsubRefs : ∀ g ∈ selsRefs sub, g ∈ U := by
          intro g hg; exact hrefs'.1 g (by simp only [selRefs]; exact hg)
        have hsome : (collectSels env fuel sub st).isSome = true := by
          apply ih hsubRefs
          simp only [selsW, selW] at hfuel
          omega
        cases hsub : collectSels env fuel sub st with
        | none => rw [hsub] at hsome; exact Bool.noConfusion hsome
        | some r =>
          cases r with
          | error e => rfl
          | ok st1 =>
            dsimp only
            apply ih hrefs'.2
            have hkw : keyWeight env U st1 ≤ keyWeight env U st :=
              keyWeight_mono (collect_mono hsub).1
            simp only [selsW, selW] at hfuel
            omega
      | .fragRef fid =>
        simp only [collectSels]
        by_cases hc : st.fragSet.contains fid = true
        · rw [if_pos hc]
          apply ih hrefs'.2
          simp only [selsW, selW] at hfuel
          omega
        · rw [if_neg hc]
          cases hset : fragMapSet env st fid with
          | error e => rfl
          | ok st1 =>
            obtain ⟨htr, hfs, _⟩ := fragMapSet_ok hset
            dsimp only
            have hfidU : fid ∈ U := hrefs'.1 fid (by simp [selRefs])
            have hkv : keyWeight env U ⟨st1.entries, st1.fragSet, st1.trace ++ [fid]⟩
                + (1 + selsW (envFrag env fid).body) = keyWeight env U st := by
              rw [hfs]
              exact keyWeight_visit hU hfidU (Bool.eq_false_iff.mpr hc)
            have hrestW : 1 ≤ selsW rest := selsW_pos rest
            have hbodyW : 1 ≤ selsW (envFrag env fid).body := selsW_pos _
            have hsome : (collectSels env fuel (envFrag env fid).body
                ⟨st1.entries, st1.fragSet, st1.trace ++ [fid]⟩).isSome = true := by
              apply ih (hclosed fid hfidU)
              simp only [selsW, selW] at hfuel
              omega
            cases hbody : collectSels env fuel (envFrag env fid).body
                ⟨st1.entries, st1.fragSet, st1.trace ++ [fid]⟩ with
            | none => rw [hbody] at hsome; exact Bool.noConfusion hsome
            | some r =>
              cases r with
              | error e => rfl
              | ok st2 =>
                dsimp only
                apply ih hrefs'.2
                have hkw : keyWeight env U st2
                    ≤ keyWeight env U ⟨st1.entries, st1.fragSet, st1.trace ++ [fid]⟩ :=
                  keyWeight_mono (collect_mono hbody).1
                simp only [selsW, selW] at hfuel
                omega
      | .spreadS fid =>
        simp only [collectSels]
        by_cases hc : st.fragSet.contains fid = true
        · rw [if_pos hc]
          apply ih hrefs'.2
          simp only [selsW, selW] at hfuel
          omega
        · rw [if_neg hc]
          cases hset : fragMapSet env st fid with
          | error e => rfl
          | ok st1 =>
            obtain ⟨htr, hfs, _⟩ := fragMapSet_ok hset
            dsimp only
            have hfidU : fid ∈ U := hrefs'.1 fid (by simp [selRefs])
            have hkv : keyWeight env U ⟨st1.entries, st1.fragSet, st1.trace ++ [fid]⟩
                + (1 + selsW (envFrag env fid).body) = keyWeight env U st := by
              rw [hfs]
              exact keyWeight_visit hU hfidU (Bool.eq_false_iff.mpr hc)
            have hrestW : 1 ≤ selsW rest := selsW_pos rest
            have hbodyW : 1 ≤ selsW (envFrag env fid).body := selsW_pos _
            have hsome : (collectSels env fuel (envFrag env fid).body
                ⟨st1.entries, st1.fragSet, st1.trace ++ [fid]⟩).isSome = true := by
              apply ih (hclosed fid hfidU)
              simp only [selsW, selW] at hfuel
              omega
            cases hbody : collectSels env fuel (envFrag env fid).body
                ⟨st1.entries, st1.fragSet, st1.trace ++ [fid]⟩ with
            | none => rw [hbody] at hsome; exact Bool.noConfusion hsome
            | some r =>
              cases r with
              | error e => rfl
              | ok st2 =>
                dsimp only
                apply ih hrefs'.2
                have hkw : keyWeight env U st2
                    ≤ keyWeight env U ⟨st1.entries, st1.fragSet, st1.trace ++ [fid]⟩ :=
                  keyWeight_mono (collect_mono hbody).1
                simp only [selsW, selW] at hfuel
                omega

/-! ### Counting entries and definition names -/

theorem count_snd_eq_one {env : List Frag} :
    ∀ {entries : List (String × Nat)} {nm : String} {fid : Nat},
      (entries.map Prod.fst).Nodup →
      (∀ e ∈ entries, fidName env e.2 = e.1) →
      lookupEntry entries nm = some fid →
      fidName env fid = nm →
      (entries.map Prod.snd).count fid = 1 := by
  intro entries
  induction entries with
  | nil =>
    intro nm fid _ _ hl _
    simp [lookupEntry] at hl
  | cons e rest ih =>
    intro nm fid hnd hnames hl hfn
    have hnd' : (rest.map Prod.fst).Nodup := (List.nodup_cons.mp (by simpa using hnd)).2
    have hkey : e.1 ∉ rest.map Prod.fst := (List.nodup_cons.mp (by simpa using hnd)).1
    by_cases he : e.1 = nm
    · have hfid : e.2 = fid := by
        unfold lookupEntry at hl
        rw [List.find?_cons_of_pos _ (by simpa using he)] at hl
        simpa using hl
      have hzero : fid ∉ rest.map Prod.snd := by
        intro hmem
        rcases List.mem_map.mp hmem with ⟨a, ha, hafid⟩
        have ha1 : a.1 = nm := by rw [← hnames a (List.mem_cons_of_mem e ha), hafid, hfn]
        apply hkey
        rw [he]
        exact List.mem_map.mpr ⟨a, ha, ha1⟩
      simp only [List.map_cons, hfid, List.count_cons_self]
      rw [List.count_eq_zero.mpr hzero]
    · have hfid : e.2 ≠ fid := by
        intro hefid
        exact he (by rw [← hnames e (List.mem_cons_self e rest), hefid, hfn])
      have hl' : lookupEntry rest nm = some fid := by
        unfold lookupEntry at hl ⊢
        rw [List.find?_cons_of_neg _ (by simpa using he)] at hl
        exact hl
      simp only [List.map_cons]
      rw [List.count_cons_of_ne (fun hh => hfid hh.symm)]
      exact ih hnd' (fun a ha => hnames a (List.mem_cons_of_mem e ha)) hl' hfn

theorem fragDefNames_build (env : List Frag) (ents : List (String × Nat))
    (opd : OperationDefinitionNode) :
    fragDefNames ⟨(ents.map (fun e => DefinitionNode.fragmentDefinition (definitionNode env e.2)))
        ++ [DefinitionNode.operationDefinition opd]⟩
      = ents.map (fun e => fidName env e.2) := by
  induction ents with
  | nil => rfl
  | cons e rest ih =>
    simp only [fragDefNames, List.map_cons, List.cons_append, List.filterMap_cons] at ih ⊢
    rw [ih]
    rfl

/-! ### Claim theorems -/

/-- Claim C3: for every Operation or Fragment Definition on which `.dynamic()`
was never called (static mode: no cache-key function), a second `.document()`
call returns the same object reference as the first call — the cached value is
reused unconditionally once present. -/
theorem c3_static_cache_reuses (K W : Type) [DecidableEq K] (content : DocumentNode)
    (st : DocState K W) (w1 w2 : W) (h : st.cache.cacheKeyFn = none) :
    (documentCall content (documentCall content st w1).2 w2).1
      = (documentCall content st w1).1 := by
  obtain ⟨⟨fn, cc⟩, n⟩ := st
  dsimp only at h
  subst h
  match cc with
  | none => simp [documentCall, kcGet, kcSet]
  | some (v, none) => simp [documentCall, kcGet, kcSet]
  | some (v, some k) => simp [documentCall, kcGet, kcSet]

theorem c3_static_cache_reuses_witness :
    (documentCall ⟨[]⟩ (documentCall ⟨[]⟩ (⟨⟨none, none⟩, 0⟩ : DocState Nat Nat) 0).2 0).1
      = (documentCall ⟨[]⟩ (⟨⟨none, none⟩, 0⟩ : DocState Nat Nat) 0).1 :=
  c3_static_cache_reuses Nat Nat ⟨[]⟩ ⟨⟨none, none⟩, 0⟩ 0 0 rfl

/-- Claim C4: after `.dynamic()` with no cache-key function (modeled by the
source's `cacheKey ?? (() => [])` default) or with a key function returning an
empty array, every `.document()` call rebuilds: two consecutive calls return
different object references (distinct build ids) with identical content,
because an empty key array is treated as always-unequal. -/
theorem c4_dynamic_rebuilds (K W : Type) [DecidableEq K] (content : DocumentNode)
    (st : DocState K W) (w1 w2 : W) (f : W → List K)
    (hf : st.cache.cacheKeyFn = some f) (hempty : ∀ w, f w = []) :
    (documentCall content (documentCall content st w1).2 w2).1.buildId
      ≠ (documentCall content st w1).1.buildId ∧
    (documentCall content (documentCall content st w1).2 w2).1.doc
      = (documentCall content st w1).1.doc := by
  obtain ⟨⟨fn, cc⟩, n⟩ := st
  dsimp only at hf
  subst hf
  have hget : ∀ (cc' : Option (TaggedDoc × Option (List K))) (w : W),
      kcGet (⟨some f, cc'⟩ : KeyedCache TaggedDoc K W) w = none := by
    intro cc' w
    match cc' with
    | none => simp [kcGet]
    | some (v, none) => simp [kcGet]
    | some (v, some k) => simp [kcGet, hempty]
  refine ⟨?_, ?_⟩ <;> simp [documentCall, hget, kcSet]

theorem c4_dynamic_rebuilds_witness :
    (documentCall ⟨[]⟩ (documentCall ⟨[]⟩
        (⟨⟨some fun _ => [], none⟩, 0⟩ : DocState Nat Nat) 0).2 0).1.buildId
      ≠ (documentCall ⟨[]⟩ (⟨⟨some fun _ => [], none⟩, 0⟩ : DocState Nat Nat) 0).1.buildId ∧
    (documentCall ⟨[]⟩ (documentCall ⟨[]⟩
        (⟨⟨some fun _ => [], none⟩, 0⟩ : DocState Nat Nat) 0).2 0).1.doc
      = (documentCall ⟨[]⟩ (⟨⟨some fun _ => [], none⟩, 0⟩ : DocState Nat Nat) 0).1.doc :=
  c4_dynamic_rebuilds Nat Nat ⟨[]⟩ ⟨⟨some fun _ => [], none⟩, 0⟩ 0 0 (fun _ => [])
    rfl (fun _ => rfl)

/-- Claim C5: with `.dynamic(() => [x])`, if `x` is unchanged between two
`.document()` calls (element-wise equality, reference identity for objects),
the same object reference is returned; if `x` is a different value (including
a structurally identical but distinct object, whose identity differs), a new
reference is returned. -/
theorem c5_keyed_cache (K : Type) [DecidableEq K] (content : DocumentNode) (n0 : Nat)
    (w w' : K) :
    (w' = w →
      (documentCall content (documentCall content
          (⟨⟨some fun x => [x], none⟩, n0⟩ : DocState K K) w).2 w').1
        = (documentCall content (⟨⟨some fun x => [x], none⟩, n0⟩ : DocState K K) w).1) ∧
    (w' ≠ w →
      (documentCall content (documentCall content
          (⟨⟨some fun x => [x], none⟩, n0⟩ : DocState K K) w).2 w').1.buildId
        ≠ (documentCall content (⟨⟨some fun x => [x], none⟩, n0⟩ : DocState K K) w).1.buildId) := by
  constructor
  · rintro rfl
    simp [documentCall, kcGet, kcSet, everyMatch]
  · intro hne
    simp [documentCall, kcGet, kcSet, everyMatch, hne]

theorem c5_keyed_cache_witness :
    ((documentCall ⟨[]⟩ (documentCall ⟨[]⟩
        (⟨⟨some fun x => [x], none⟩, 0⟩ : DocState Nat Nat) 1).2 1).1
      = (documentCall ⟨[]⟩ (⟨⟨some fun x => [x], none⟩, 0⟩ : DocState Nat Nat) 1).1) ∧
    ((documentCall ⟨[]⟩ (documentCall ⟨[]⟩
        (⟨⟨some fun x => [x], none⟩, 0⟩ : DocState Nat Nat) 1).2 2).1.buildId
      ≠ (documentCall ⟨[]⟩ (⟨⟨some fun x => [x], none⟩, 0⟩ : DocState Nat Nat) 1).1.buildId) :=
  ⟨(c5_keyed_cache Nat ⟨[]⟩ 0 1 1).1 rfl, (c5_keyed_cache Nat ⟨[]⟩ 0 1 2).2 (by decide)⟩

/-- Claim C10: in keyed-dynamic mode a cache hit only requires the fresh key
array to be non-empty and element-wise equal to the stored key at the same
indices; a non-empty strict prefix of the stored key therefore hits even
though the lengths differ. -/
theorem c10_shorter_key_hits (T K W : Type) [DecidableEq K] (f : W → List K) (w : W)
    (v : T) (ck rest : List K) (h1 : f w = ck) (h2 : ck ≠ []) :
    kcGet (⟨some f, some (v, some (ck ++ rest))⟩ : KeyedCache T K W) w = some v := by
  have hlen : ck.length ≠ 0 := fun hh => h2 (List.length_eq_zero.mp hh)
  simp [kcGet, h1, everyMatch_append, hlen]

theorem c10_shorter_key_hits_witness :
    kcGet (⟨some fun _ => [1], some (7, some [1, 2])⟩ : KeyedCache Nat Nat Unit) () = some 7 :=
  c10_shorter_key_hits Nat Nat Unit (fun _ => [1]) () 7 [1] [2] rfl (by decide)

/-- Claim C8 (amended): the value serializer tags every number as an
integer-kind value node carrying the number's string representation; it never
produces a float-kind node, even for non-integer numbers. -/
theorem c8_number_serialization (q : Rat) :
    (makeValueNode (.numI q)).kind = "IntValue" ∧
    makeValueNode (.numI q) = .intValue (jsNumToString q) := ⟨rfl, rfl⟩

/-- The rational 3/2, i.e. the JavaScript number 1.5, given in normal form so
that its fields compute. -/
def ratThreeHalves : Rat := ⟨3, 2, by norm_num, by norm_num⟩

/-- Claim C8 counterexample: the non-integer number 3/2 (= 1.5) is serialized
as an integer-kind node, not as the float-kind node the claim requires. -/
theorem c8_counterexample :
    ratThreeHalves.den ≠ 1 ∧
    jsNumToString ratThreeHalves = "1.5" ∧
    (makeValueNode (.numI ratThreeHalves)).kind = "IntValue" ∧
    "IntValue" ≠ "FloatValue" := by
  refine ⟨by decide, by decide, rfl, by decide⟩

/-- Two distinct (non-parameterized) fragment definitions under the same name
with the same type condition and fresh caches but different selection sets. -/
def c1Env : List Frag :=
  [⟨"F", "T", [Sel.fieldS "a" [] none none], "\x7b\x7d"⟩,
   ⟨"F", "T", [Sel.fieldS "b" [] none none], "\x7b\x7d"⟩]

/-- Claim C1, the code evaluated at the failing input: registering two
distinct fragment instances named F with differing selection sets (but equal
name, type condition and cache state) succeeds silently — no Fragment
Conflict error is raised, because `JSON.stringify` of a `FragmentDefinition`
instance omits the function-valued `selections` property, so the two
instances serialize identically even though their produced definitions (shown
by the differing child names) are not structurally equal. -/
theorem c1_conflict_not_raised :
    (match fragMapSet c1Env ⟨[], [], []⟩ 0 with
      | .ok st1 => fragMapSet c1Env st1 1
      | .error e => .error e) = .ok ⟨[("F", 1)], [1, 0], []⟩ ∧
    (definitionNode c1Env 0).selections.map selectionName
      ≠ (definitionNode c1Env 1).selections.map selectionName := by
  refine ⟨rfl, by decide⟩

/-- Claim C7: the `collectFragments` traversal terminates on every fragment
graph, including mutually recursive graphs and a fragment that spreads
itself: with fuel at least the structural weight of the start list plus the
weight of the not-yet-registered fragments of any duplicate-free,
reference-closed universe `U`, the traversal completes (no fuel exhaustion);
and a visit to an already-registered instance returns immediately, leaving
the registry untouched and continuing with the remaining selections. -/
theorem c7_collect_terminates (env : List Frag) (U : List Nat)
    (hU : U.Nodup)
    (hclosed : ∀ fid ∈ U, ∀ g ∈ selsRefs (envFrag env fid).body, g ∈ U) :
    (∀ fuel l st, (∀ g ∈ selsRefs l, g ∈ U) →
      selsW l + keyWeight env U st ≤ fuel →
      (collectSels env fuel l st).isSome = true) ∧
    (∀ fuel fid rest st, st.fragSet.contains fid = true →
      collectSels env (fuel + 1) (Sel.fragRef fid :: rest) st = collectSels env fuel rest st) := by
  constructor
  · intro fuel l st h1 h2
    exact collect_total_aux hU hclosed h1 h2
  · intro fuel fid rest st hc
    simp only [collectSels, if_pos hc]

/-- A self-spreading fragment: F's body spreads F itself. -/
def c7Env : List Frag := [⟨"F", "T", [Sel.spreadS 0], "\x7b\x7d"⟩]

theorem c7_collect_terminates_witness :
    (collectSels c7Env 5 [Sel.fragRef 0] ⟨[], [], []⟩).isSome = true ∧
    collectSels c7Env 4 (Sel.fragRef 0 :: []) ⟨[], [0], []⟩
      = collectSels c7Env 3 [] ⟨[], [0], []⟩ := by
  constructor
  · exact (c7_collect_terminates c7Env [0] (by decide) (by decide)).1
      5 [Sel.fragRef 0] ⟨[], [], []⟩ (by decide) (by decide)
  · exact (c7_collect_terminates c7Env [0] (by decide) (by decide)).2
      3 0 [] ⟨[], [0], []⟩ (by decide)

/-- Claim C2: in every document produced by `Operation.document()`, the
definitions are the collected fragments' definition nodes — whose keys are in
first-collection (depth-first, pre-order) sequence: the registry's key list
equals the first-occurrence deduplication of the chronological first-visit
name sequence — followed by exactly one operation definition; every created
selection set puts the synthetic `__typename` selection first followed by the
children in declaration order, and every selection set of the output document
is of that shape. -/
theorem c2_document_ordering (env : List Frag) (op : Op) (fuel : Nat) (st : CollectSt)
    (h : collectSels env fuel op.body ⟨[], [], []⟩ = some (.ok st)) :
    ∃ doc tr, opBuildT env op fuel = some (.ok (doc, tr)) ∧
      doc.definitions =
        (st.entries.map (fun e => DefinitionNode.fragmentDefinition (definitionNode env e.2))) ++
        [DefinitionNode.operationDefinition
          ⟨op.opType, op.name, op.variableDefinitions, createSelectionSet env op.body⟩] ∧
      st.entries.map Prod.fst = dedupFirst (st.trace.map (fidName env)) ∧
      docGood doc = true ∧
      createSelectionSet env op.body = typenameNode :: selNodes env op.body := by
  have hinv := collect_regInv h regInv_init
  have hbuild : opBuildT env op fuel = some (.ok (
      ⟨(st.entries.map (fun e => DefinitionNode.fragmentDefinition (definitionNode env e.2))) ++
        [DefinitionNode.operationDefinition
          ⟨op.opType, op.name, op.variableDefinitions, createSelectionSet env op.body⟩]⟩,
      [none] ++ st.trace.map some ++ st.entries.map (fun e => some e.2) ++ [none])) := by
    unfold opBuildT
    rw [h]
  refine ⟨_, _, hbuild, rfl, hinv.namesEq, ?_, rfl⟩
  · simp only [docGood, List.all_append, Bool.and_eq_true, List.all_cons, List.all_nil,
      Bool.and_true]
    refine ⟨?_, ?_⟩
    · rw [List.all_eq_true]
      intro d hd
      rcases List.mem_map.mp hd with ⟨e, _, rfl⟩
      exact defGood_definitionNode env e.2
    · exact ssGood_createSelectionSet env op.body

/-- A fragment and an operation spreading it under two different parent
fields. -/
def c2wEnv : List Frag := [⟨"F", "User", [Sel.fieldS "id" [] none none], "\x7b\x7d"⟩]

/-- An operation whose selection set references fragment F once. -/
def c2wOp : Op := ⟨"Q", "query", [], [Sel.fieldS "user" [] none (some [Sel.fragRef 0])]⟩

theorem c2_document_ordering_witness :
    ∃ doc tr, opBuildT c2wEnv c2wOp 10 = some (.ok (doc, tr)) ∧
      doc.definitions =
        (([("F", 0)] : List (String × Nat)).map
          (fun e => DefinitionNode.fragmentDefinition (definitionNode c2wEnv e.2))) ++
        [DefinitionNode.operationDefinition
          ⟨c2wOp.opType, c2wOp.name, c2wOp.variableDefinitions,
            createSelectionSet c2wEnv c2wOp.body⟩] ∧
      ([("F", 0)] : List (String × Nat)).map Prod.fst
        = dedupFirst (([0] : List Nat).map (fidName c2wEnv)) ∧
      docGood doc = true ∧
      createSelectionSet c2wEnv c2wOp.body = typenameNode :: selNodes c2wEnv c2wOp.body :=
  c2_document_ordering c2wEnv c2wOp 10 ⟨[("F", 0)], [0], [0]⟩ (by rfl)

/-- Claim C6: a successful document build contains no two fragment-definition
nodes with the same name — each collected fragment name appears exactly
once (the registry is name-keyed, and re-spreading a registered instance
short-circuits). -/
theorem c6_fragment_dedup (env : List Frag) (op : Op) (fuel : Nat) (doc : DocumentNode)
    (tr : List (Option Nat)) (h : opBuildT env op fuel = some (.ok (doc, tr))) :
    (fragDefNames doc).Nodup ∧ ∀ n ∈ fragDefNames doc, (fragDefNames doc).count n = 1 := by
  unfold opBuildT at h
  cases hcol : collectSels env fuel op.body ⟨[], [], []⟩ with
  | none => rw [hcol] at h; exact Option.noConfusion h
  | some r =>
    cases r with
    | error e => rw [hcol] at h; simp at h
    | ok st =>
      rw [hcol] at h
      simp only [Option.some.injEq, Except.ok.injEq, Prod.mk.injEq] at h
      obtain ⟨hdoc, _⟩ := h
      have hinv := collect_regInv hcol regInv_init
      have hnames : fragDefNames doc = st.entries.map Prod.fst := by
        rw [← hdoc, fragDefNames_build]
        exact List.map_congr_left (fun e he => hinv.entryNames e he)
      rw [hnames]
      exact ⟨hinv.namesNodup,
        fun n hn => List.count_eq_one_of_mem hinv.namesNodup hn⟩

/-- One fragment spread twice, via two different parent fields. -/
def c6wEnv : List Frag := [⟨"F", "User", [Sel.fieldS "id" [] none none], "\x7b\x7d"⟩]

/-- A query spreading the same fragment instance under two fields. -/
def c6wOp : Op := ⟨"Q", "query", [],
  [Sel.fieldS "a" [] none (some [Sel.fragRef 0]),
   Sel.fieldS "b" [] none (some [Sel.fragRef 0])]⟩

/-- The document the double-spread query builds. -/
def c6wDoc : DocumentNode :=
  match opBuildT c6wEnv c6wOp 20 with
  | some (.ok (d, _)) => d
  | _ => ⟨[]⟩

/-- Its thunk-invocation trace. -/
def c6wTr : List (Option Nat) :=
  match opBuildT c6wEnv c6wOp 20 with
  | some (.ok (_, t)) => t
  | _ => []

theorem c6_fragment_dedup_witness :
    ((fragDefNames c6wDoc).Nodup ∧
      ∀ n ∈ fragDefNames c6wDoc, (fragDefNames c6wDoc).count n = 1) ∧
    (fragDefNames c6wDoc).count "F" = 1 := by
  refine ⟨c6_fragment_dedup c6wEnv c6wOp 20 c6wDoc c6wTr (by rfl), by decide⟩

theorem count_none_map_pair {entries : List (String × Nat)} :
    (entries.map (fun e => some e.2)).count (none : Option Nat) = 0 := by
  rw [List.count_eq_zero]
  simp

theorem count_some_map (l : List Nat) (fid : Nat) :
    (l.map Option.some).count (some fid) = l.count fid := by
  induction l with
  | nil => rfl
  | cons a l ih =>
    simp only [List.map_cons, List.count_cons, ih]
    by_cases hab : fid = a
    · subst hab; simp
    · simp [hab]

theorem count_some_map_snd {entries : List (String × Nat)} {fid : Nat} :
    (entries.map (fun e => some e.2)).count (some fid) = (entries.map Prod.snd).count fid := by
  rw [show (fun (e : String × Nat) => some e.2) = (Option.some ∘ Prod.snd) from rfl,
    ← List.map_map]
  exact count_some_map _ _

/-- Claim C9 (amended): the lazily stored selection-set producer thunk is
never invoked at construction (an `Op`/`Frag` is plain data; the builder's
result enters only through `document()`), and during each uncached
`.document()` build it is invoked exactly twice — once while collecting
fragments and once while serializing the definition/operation node.  For an
Operation this is unconditional; for a Fragment Definition it holds whenever
its registry entry is not displaced by a same-named distinct instance. -/
theorem c9_thunk_twice (env : List Frag) :
    (∀ op fuel doc tr, opBuildT env op fuel = some (.ok (doc, tr)) →
      tr.count none = 2) ∧
    (∀ fid fuel st,
      collectSels env fuel [Sel.fragRef fid] ⟨[], [], []⟩ = some (.ok st) →
      lookupEntry st.entries (fidName env fid) = some fid →
      ∃ doc tr, fragBuildT env fid fuel = some (.ok (doc, tr)) ∧
        tr.count (some fid) = 2) := by
  constructor
  · intro op fuel doc tr h
    unfold opBuildT at h
    cases hcol : collectSels env fuel op.body ⟨[], [], []⟩ with
    | none => rw [hcol] at h; exact Option.noConfusion h
    | some r =>
      cases r with
      | error e => rw [hcol] at h; simp at h
      | ok st =>
        rw [hcol] at h
        simp only [Option.some.injEq, Except.ok.injEq, Prod.mk.injEq] at h
        obtain ⟨_, htr⟩ := h
        rw [← htr]
        simp [List.count_append, count_none_map_some, count_none_map_pair]
  · intro fid fuel st h hlook
    have h0 := h
    have hinv : RegInv env st := collect_regInv h regInv_init
    cases fuel with
    | zero => simp [collectSels] at h
    | succ fuel =>
      have hstep : collectSels env (fuel + 1) [Sel.fragRef fid] ⟨[], [], []⟩
          = (match collectSels env fuel (envFrag env fid).body
              ⟨[((envFrag env fid).name, fid)], [fid], [fid]⟩ with
            | some (.ok st2) => collectSels env fuel [] st2
            | r => r) := rfl
      rw [hstep] at h
      cases hbody : collectSels env fuel (envFrag env fid).body
          ⟨[((envFrag env fid).name, fid)], [fid], [fid]⟩ with
      | none => rw [hbody] at h; exact Option.noConfusion h
      | some r =>
        cases r with
        | error e => rw [hbody] at h; simp at h
        | ok st3 =>
          rw [hbody] at h
          dsimp only at h
          cases fuel with
          | zero => simp [collectSels] at h
          | succ fuel2 =>
            simp only [collectSels, Option.some.injEq, Except.ok.injEq] at h
            subst h
            obtain ⟨_, tr', htr'⟩ := collect_mono hbody
            have htrace : st3.trace = fid :: tr' := by simpa using htr'
            have hcount_tr : st3.trace.count fid = 1 := by
              have hnd := hinv.traceNodup
              rw [htrace] at hnd ⊢
              rw [List.count_cons_self, List.count_eq_zero.mpr (List.nodup_cons.mp hnd).1]
            have hcount_ent : (st3.entries.map Prod.snd).count fid = 1 :=
              count_snd_eq_one hinv.namesNodup hinv.entryNames hlook rfl
            have hbuild : fragBuildT env fid (fuel2 + 1 + 1) = some (.ok (
                ⟨st3.entries.map
                  (fun e => DefinitionNode.fragmentDefinition (definitionNode env e.2))⟩,
                st3.trace.map some ++ st3.entries.map (fun e => some e.2))) := by
              unfold fragBuildT
              rw [h0]
            refine ⟨_, _, hbuild, ?_⟩
            rw [List.count_append, count_some_map, count_some_map_snd,
              hcount_tr, hcount_ent]

/-- A single fragment with a plain leaf body, for the fragment-side thunk
count. -/
def c9wEnv : List Frag := [⟨"F", "T", [Sel.fieldS "id" [] none none], "\x7b\x7d"⟩]

theorem c9_thunk_twice_witness :
    (([none, none] : List (Option Nat)).count none = 2) ∧
    (∃ doc tr, fragBuildT c9wEnv 0 5 = some (.ok (doc, tr)) ∧ tr.count (some 0) = 2) := by
  constructor
  · exact (c9_thunk_twice []).1 ⟨"Q", "query", [], []⟩ 2
      ⟨[DefinitionNode.operationDefinition ⟨"query", "Q", [], [typenameNode]⟩]⟩
      [none, none] (by rfl)
  · exact (c9_thunk_twice c9wEnv).2 0 5 ⟨[("F", 0)], [0], [0]⟩ (by rfl) (by rfl)

/-- Claim C9 counterexample: for a concrete operation, one uncached
`.document()` build invokes the operation's selections thunk twice (trace
count of the operation-thunk marker is 2), not exactly once as claimed. -/
theorem c9_counterexample :
    (match opBuildT [] ⟨"BasicQuery", "query", [],
        [Sel.fieldS "viewer" [] none (some [Sel.fieldS "name" [] none none])]⟩ 5 with
      | some (.ok (_, tr)) => tr.count (none : Option Nat)
      | _ => 0) = 2 ∧ (2 : Nat) ≠ 1 :=
  ⟨by decide, by decide⟩
